import Mathlib

/-!
Shallow embedding of the miniserde core (value tree, serialization fragments,
deserialization visitor protocol) and proofs of the specification claims.

Source files embedded: `src/json/value.rs`, `src/json/number.rs`,
`src/json/array.rs`, `src/de/mod.rs`.  Parts of the crate that the claims
depend on but whose source is not available (`ser/mod.rs` with `Fragment`,
`json/object.rs`, `json/drop.rs`, `de/impls.rs`, `error.rs`,
`private::stream_slice`, and the external `itoa`/`ryu` formatting crates) are
modelled from the specification, each marked `Modelled from the spec:` in its
doc comment.
-/

set_option maxHeartbeats 1000000

namespace Miniserde

/-- Modelled from the spec: `error.rs` is absent from the sources.  The spec
(§7) prescribes a single generic error kind with no payload, matching the unit
struct `Error` used by `de/mod.rs`. -/
inductive Error where
  | mk
deriving DecidableEq

/-- `Result<T>` from `error.rs`: success or the generic `Error`. -/
abbrev Result (α : Type) := Except Error α

/-- Modelled from the spec: the payload of the `f64`-carrying variants.  The
core never computes with floats - it only moves them - so an `f64` payload is
embedded as the exact dyadic rational `m * 2 ^ e` that a finite double
denotes.  In this model parsing a decimal is exact, so the unique decimal
string that round-trips is the exact decimal expansion. -/
structure F64Bits where
  m : Int
  e : Int
deriving DecidableEq

/-- A JSON number represented by some Rust primitive (`json/number.rs`):
`U64(u64)`, `I64(i64)`, `F64(f64)`. -/
inductive Number where
  | U64 (n : Nat)
  | I64 (n : Int)
  | F64 (x : F64Bits)
deriving DecidableEq

/-- `#[derive(Clone)]` on `Number`: a field-by-field copy. -/
def Number.clone : Number → Number
  | .U64 n => .U64 n
  | .I64 n => .I64 n
  | .F64 x => .F64 x

mutual

/-- Any valid JSON value (`json/value.rs`): `Null`, `Bool(bool)`,
`Number(Number)`, `String(String)`, `Array(Array)`, `Object(Object)`. -/
inductive Value where
  | Null : Value
  | Bool (b : Bool) : Value
  | Number (n : Number) : Value
  | String (s : String) : Value
  | Array (a : Array) : Value
  | Object (o : Object) : Value

/-- A `Vec<Value>` with a non-recursive drop impl (`json/array.rs`).  The
single field is the inner vector. -/
inductive Array where
  | mk (inner : List Value) : Array

/-- Modelled from the spec: `json/object.rs` is absent from the sources.  The
spec (§3) describes `Object` as an ordered-insertion mapping from string key
to `Value`; it is embedded as the list of entries in insertion order. -/
inductive Object where
  | mk (entries : List (String × Value)) : Object

end

/-- The inner vector of an `Array`. -/
def Array.inner : Array → List Value
  | .mk l => l

/-- The entries of an `Object`, in insertion order. -/
def Object.entries : Object → List (String × Value)
  | .mk l => l

/-- `impl Default for Value` (`json/value.rs`): the default value is null. -/
def Value.default : Value := Value.Null

/-- `Cow<str>` as used by the `Str` fragment: borrowed or owned text. -/
inductive Cow where
  | Borrowed (s : String)
  | Owned (s : String)
deriving DecidableEq

/-- The text carried by a `Cow`, disregarding ownership. -/
def Cow.text : Cow → String
  | .Borrowed s => s
  | .Owned s => s

/-- Modelled from the spec: `ser/mod.rs` is absent from the sources.  The spec
(§4.3) defines `Fragment` as a tagged union returned by `begin`: `Null`,
`Bool`, `Str` (possibly borrowed), `U64`/`I64`/`F64` mirroring the `Number`
representations, and `Seq`/`Map` carrying lazily driven iterators.  An
iterator is embedded as the list of items it will yield, in order. -/
inductive Fragment where
  | Null : Fragment
  | Bool (b : Bool) : Fragment
  | Str (s : Cow) : Fragment
  | U64 (n : Nat) : Fragment
  | I64 (n : Int) : Fragment
  | F64 (x : F64Bits) : Fragment
  | Seq (elements : List Value) : Fragment
  | Map (entries : List (String × Value)) : Fragment

/-- `impl Serialize for Number` (`json/number.rs`): each representation maps
to the mirroring fragment variant with the same payload. -/
def Number.begin : Number → Fragment
  | .U64 n => .U64 n
  | .I64 n => .I64 n
  | .F64 x => .F64 x

/-- Modelled from the spec: `private::stream_slice` is absent from the
sources.  Per §4.3 it wraps a slice as a `Seq` fragment whose iterator yields
the elements in index order. -/
def streamSlice (l : List Value) : Fragment := .Seq l

/-- `impl Serialize for Array` (`json/array.rs`): `stream_slice` over the
inner vector. -/
def Array.begin (a : Array) : Fragment := streamSlice a.inner

/-- Modelled from the spec: the `Serialize` impl for `Object` is in the absent
`json/object.rs`.  Per §4.3 a map serializes as a `Map` fragment whose
iterator yields the (key, value) pairs in insertion order. -/
def Object.begin (o : Object) : Fragment := .Map o.entries

/-- `impl Serialize for Value` (`json/value.rs`): each variant maps to the
corresponding fragment; strings are borrowed, not copied. -/
def Value.begin : Value → Fragment
  | .Null => .Null
  | .Bool b => .Bool b
  | .Number n => n.begin
  | .String s => .Str (.Borrowed s)
  | .Array a => a.begin
  | .Object o => o.begin

mutual

/-- Total number of nodes of a value tree: the value itself plus the nodes of
all children of its composites. -/
def Value.nodeCount : Value → Nat
  | .Null => 1
  | .Bool _ => 1
  | .Number _ => 1
  | .String _ => 1
  | .Array a => 1 + Array.nodeCount a
  | .Object o => 1 + Object.nodeCount o

/-- Nodes owned by an array: the nodes of its elements. -/
def Array.nodeCount : Array → Nat
  | .mk l => nodeCountList l

/-- Nodes owned by an object: the nodes of its values. -/
def Object.nodeCount : Object → Nat
  | .mk ps => nodeCountEntries ps

/-- Sum of the node counts of a list of values. -/
def nodeCountList : List Value → Nat
  | [] => 0
  | v :: vs => Value.nodeCount v + nodeCountList vs

/-- Sum of the node counts of the values of a list of entries. -/
def nodeCountEntries : List (String × Value) → Nat
  | [] => 0
  | (_, v) :: ps => Value.nodeCount v + nodeCountEntries ps

end

/-- The direct children of a value: the elements of an `Array`, the entry
values of an `Object`, nothing for a leaf. -/
def Value.children : Value → List Value
  | .Array (.mk l) => l
  | .Object (.mk ps) => ps.map Prod.snd
  | _ => []

theorem nodeCount_pos (v : Value) : 1 ≤ v.nodeCount := by
  cases v <;> simp [Value.nodeCount]

theorem nodeCountList_append (l₁ l₂ : List Value) :
    nodeCountList (l₁ ++ l₂) = nodeCountList l₁ + nodeCountList l₂ := by
  induction l₁ with
  | nil => simp [nodeCountList]
  | cons v vs ih => simp [nodeCountList, ih]; omega

theorem nodeCountList_map_snd (ps : List (String × Value)) :
    nodeCountList (ps.map Prod.snd) = nodeCountEntries ps := by
  induction ps with
  | nil => rfl
  | cons p ps ih => cases p; simp [nodeCountList, nodeCountEntries, ih]

/-- Releasing a node and replacing it by its direct children on the work list
accounts for exactly that one node. -/
theorem nodeCount_children (v : Value) :
    v.nodeCount = 1 + nodeCountList v.children := by
  cases v with
  | Array a => cases a; simp [Value.nodeCount, Value.children, Array.nodeCount]
  | Object o =>
      cases o
      simp [Value.nodeCount, Value.children, Object.nodeCount, nodeCountList_map_snd]
  | _ => simp [Value.nodeCount, Value.children, nodeCountList]

theorem nodeCount_le_of_mem {v : Value} {l : List Value} (h : v ∈ l) :
    v.nodeCount ≤ nodeCountList l := by
  induction l with
  | nil => cases h
  | cons w ws ih =>
      rcases List.mem_cons.mp h with rfl | h
      · simp only [nodeCountList]
        omega
      · have := ih h
        simp only [nodeCountList]
        omega

theorem nodeCount_le_of_mem_entries {p : String × Value} {ps : List (String × Value)}
    (h : p ∈ ps) : p.2.nodeCount ≤ nodeCountEntries ps := by
  induction ps with
  | nil => cases h
  | cons q qs ih =>
      rcases List.mem_cons.mp h with rfl | h
      · cases p
        simp only [nodeCountEntries]
        omega
      · have := ih h
        cases q
        simp only [nodeCountEntries]
        omega

/-- Modelled from the spec: `json/drop.rs` (`drop::safely`) is absent from the
sources.  Per §4.1 teardown keeps an explicit work list; each iteration pops
one value, releases it, and drains its direct children onto the work list -
it never recurses into a child's own teardown.  `teardownRun` returns the
number of iterations of that loop, i.e. the number of nodes released. -/
def teardownRun : List Value → Nat
  | [] => 0
  | v :: ws => 1 + teardownRun (v.children ++ ws)
termination_by ws => nodeCountList ws
decreasing_by
  simp only [nodeCountList, nodeCountList_append]
  have h := nodeCount_children v
  omega

/-- The work-list teardown loop runs exactly one iteration per node. -/
theorem teardownRun_eq (ws : List Value) : teardownRun ws = nodeCountList ws := by
  induction ws using teardownRun.induct with
  | case1 => rw [teardownRun]; rfl
  | case2 v ws ih =>
      rw [teardownRun, ih, nodeCountList_append, nodeCountList]
      have h := nodeCount_children v
      omega

/-- A chain of `n` nested single-element arrays around a `Null` leaf, as in
the doc example of `json/value.rs`. -/
def chain : Nat → Value
  | 0 => .Null
  | n + 1 => .Array (.mk [chain n])

theorem nodeCount_chain (n : Nat) : (chain n).nodeCount = n + 1 := by
  induction n with
  | zero => rfl
  | succ n ih =>
      simp [chain, Value.nodeCount, Array.nodeCount, nodeCountList, ih]
      omega

mutual

/-- `#[derive(Clone)]` on `Value` (`json/value.rs`): clones the payload of the
matched variant field by field. -/
def Value.clone : Value → Value
  | .Null => .Null
  | .Bool b => .Bool b
  | .Number n => .Number n.clone
  | .String s => .String s
  | .Array a => .Array a.clone
  | .Object o => .Object o.clone

/-- `impl Clone for Array` (`json/array.rs`): clones the inner vector, which
clones each element in order (`Vec::clone`). -/
def Array.clone : Array → Array
  | .mk l => .mk (cloneList l)

/-- Modelled from the spec: the `Clone` impl for `Object` lives in the absent
`json/object.rs`.  Per §4.1 cloning a value tree is a deep, eager, entry-wise
copy. -/
def Object.clone : Object → Object
  | .mk ps => .mk (cloneEntries ps)

/-- Element-wise clone of a vector of values. -/
def cloneList : List Value → List Value
  | [] => []
  | v :: vs => v.clone :: cloneList vs

/-- Entry-wise clone of the entries of an object. -/
def cloneEntries : List (String × Value) → List (String × Value)
  | [] => []
  | (k, v) :: ps => (k, v.clone) :: cloneEntries ps

end

/-- Induction over the value tree: to prove a property of every value it
suffices to prove it for the leaves and, for each composite, assuming it for
every direct child. -/
theorem Value.inductionOn {P : Value → Prop}
    (hNull : P .Null) (hBool : ∀ b, P (.Bool b)) (hNum : ∀ n, P (.Number n))
    (hStr : ∀ s, P (.String s))
    (hArr : ∀ l, (∀ e ∈ l, P e) → P (.Array (.mk l)))
    (hObj : ∀ ps, (∀ p ∈ ps, P p.2) → P (.Object (.mk ps))) :
    ∀ v, P v := by
  have key : ∀ n v, Value.nodeCount v ≤ n → P v := by
    intro n
    induction n with
    | zero =>
        intro v hv
        have := nodeCount_pos v
        omega
    | succ n ih =>
        intro v hv
        cases v with
        | Null => exact hNull
        | Bool b => exact hBool b
        | Number m => exact hNum m
        | String s => exact hStr s
        | Array a =>
            cases a with
            | mk l =>
                apply hArr
                intro e he
                apply ih
                have h1 := nodeCount_le_of_mem he
                have h2 : Value.nodeCount (.Array (.mk l)) = 1 + nodeCountList l := by
                  simp [Value.nodeCount, Array.nodeCount]
                omega
        | Object o =>
            cases o with
            | mk ps =>
                apply hObj
                intro p hp
                apply ih
                have h1 := nodeCount_le_of_mem_entries hp
                have h2 : Value.nodeCount (.Object (.mk ps)) = 1 + nodeCountEntries ps := by
                  simp [Value.nodeCount, Object.nodeCount]
                omega
  intro v
  exact key v.nodeCount v le_rfl

theorem Number.clone_self (n : Number) : n.clone = n := by
  cases n <;> rfl

theorem cloneList_eq_of (l : List Value) (h : ∀ e ∈ l, Value.clone e = e) :
    cloneList l = l := by
  induction l with
  | nil => rfl
  | cons v vs ih =>
      rw [cloneList, h v (List.mem_cons_self v vs),
        ih (fun e he => h e (List.mem_cons_of_mem v he))]

theorem cloneEntries_eq_of (ps : List (String × Value))
    (h : ∀ p ∈ ps, Value.clone p.2 = p.2) : cloneEntries ps = ps := by
  induction ps with
  | nil => rfl
  | cons p qs ih =>
      cases p with
      | mk k v =>
          rw [cloneEntries, h (k, v) (List.mem_cons_self _ qs),
            ih (fun q hq => h q (List.mem_cons_of_mem _ hq))]

/-- Cloning is a deep identity on the embedded tree. -/
theorem Value.clone_eq (v : Value) : v.clone = v := by
  induction v using Value.inductionOn with
  | hNull => rfl
  | hBool b => rfl
  | hNum n => rw [Value.clone, Number.clone_self]
  | hStr s => rfl
  | hArr l ih => rw [Value.clone, Array.clone, cloneList_eq_of l ih]
  | hObj ps ih => rw [Value.clone, Object.clone, cloneEntries_eq_of ps ih]

/-- `take` (`json/array.rs`): wraps the array in `ManuallyDrop` - which
suppresses the array's own `Drop` impl - and moves the inner vector out with
`ptr::read`.  In the embedding, moving the inner vector out yields exactly the
inner list. -/
def take : Array → List Value
  | .mk inner => inner

/-- `impl IntoIterator for Array` (`json/array.rs`): `take(self).into_iter()`,
yielding the elements of the taken vector in index order. -/
def Array.intoIter (a : Array) : List Value := take a

/-- Element releases performed by the array's own `Drop` impl inside
`into_iter`: the array is wrapped in `ManuallyDrop` before its inner vector is
read, so its `Drop` impl never runs and releases nothing.  (When `Drop` does
run, it drains the whole inner vector through `drop::safely`.) -/
def intoIterOwnDropReleases (_a : Array) : Nat := 0

/-- The `Visitor` trait (`de/mod.rs`): one method per primitive kind, plus
`seq`/`map` returning composite handles.  A method is a state transformer over
the bound place state `σ`; it returns the `Result` and the new state.  Every
method defaults to the trait's default body `Err(Error)`, which cannot touch
the place, so the state is returned unchanged.  `SeqH`/`MapH` stand for the
boxed `Seq`/`Map` handle types of the two composite methods. -/
structure Visitor (σ SeqH MapH : Type) where
  null : σ → Result Unit × σ := fun s => (Except.error Error.mk, s)
  boolean : Bool → σ → Result Unit × σ := fun _ s => (Except.error Error.mk, s)
  string : String → σ → Result Unit × σ := fun _ s => (Except.error Error.mk, s)
  negative : Int → σ → Result Unit × σ := fun _ s => (Except.error Error.mk, s)
  nonnegative : Nat → σ → Result Unit × σ := fun _ s => (Except.error Error.mk, s)
  float : F64Bits → σ → Result Unit × σ := fun _ s => (Except.error Error.mk, s)
  seq : σ → Result SeqH × σ := fun s => (Except.error Error.mk, s)
  map : σ → Result MapH × σ := fun s => (Except.error Error.mk, s)

/-- A visitor for a destination type that overrides none of the trait's
methods: every method keeps its default failing body. -/
def defaultVisitor (σ SeqH MapH : Type) : Visitor σ SeqH MapH := {}

/-- `Deserialize::default` (`de/mod.rs`): the initial content of a place is
`None` - a freshly created place is empty. -/
def deserializeDefault (T : Type) : Option T := none

/-- Size of a fragment for the termination of the printing/parsing driver:
composite fragments count the nodes their iterator will yield. -/
def fragSize : Fragment → Nat
  | .Seq es => 1 + nodeCountList es
  | .Map ps => 1 + nodeCountEntries ps
  | _ => 1

theorem fragSize_begin (v : Value) : fragSize v.begin = v.nodeCount := by
  cases v with
  | Number n => cases n <;> rfl
  | Array a =>
      cases a
      simp [Value.begin, Array.begin, streamSlice, Array.inner, fragSize,
        Value.nodeCount, Array.nodeCount]
  | Object o =>
      cases o
      simp [Value.begin, Object.begin, Object.entries, fragSize,
        Value.nodeCount, Object.nodeCount]
  | _ => rfl

/-- Modelled from the spec: `de/impls.rs` (the `Deserialize` impl for `Value`)
is absent from the sources.  This is the round trip driver of §6/§8: for each
fragment it invokes the matching visitor method of `Value`'s place -
`Null`/`Bool`/`Str` store the primitive (the string as an owned copy),
`U64`/`I64`/`F64` store the mirroring `Number` via
`nonnegative`/`negative`/`float`, and for `Seq`/`Map` the handle drives each
yielded item through a fresh nested place (calling `begin` on it, per §4.3)
and `finish` commits the collected elements/entries. -/
def driveFragment : Fragment → Value
  | .Null => .Null
  | .Bool b => .Bool b
  | .Str c => .String c.text
  | .U64 n => .Number (.U64 n)
  | .I64 n => .Number (.I64 n)
  | .F64 x => .Number (.F64 x)
  | .Seq es => .Array (.mk (es.attach.map fun e => driveFragment (Value.begin e.1)))
  | .Map ps =>
      .Object (.mk (ps.attach.map fun p => (p.1.1, driveFragment (Value.begin p.1.2))))
termination_by f => fragSize f
decreasing_by
  · have h2 := nodeCount_le_of_mem e.2
    rw [fragSize_begin]
    simp only [fragSize]
    omega
  · have h2 := nodeCount_le_of_mem_entries p.2
    rw [fragSize_begin]
    simp only [fragSize]
    omega

/-- Feeding a fragment into a place: on success the driver writes the
completed value as `Some` into the place (`de/mod.rs` module docs); `Value`'s
visitor accepts every fragment kind, so this always succeeds. -/
def deserializeIntoPlace (f : Fragment) (_place : Option Value) : Option Value :=
  some (driveFragment f)

theorem attachMapId {α : Type} (l : List α) (f : {x // x ∈ l} → α)
    (h : ∀ x : {x // x ∈ l}, f x = x.1) : l.attach.map f = l := by
  have h1 : l.attach.map f = l.attach.map (fun x => x.1) :=
    List.map_congr_left (fun x _ => h x)
  rw [h1]
  simp

/-- Deserializing the fragment produced by `begin` reconstructs the value. -/
theorem driveFragment_begin (v : Value) : driveFragment v.begin = v := by
  induction v using Value.inductionOn with
  | hNull => simp [Value.begin, driveFragment]
  | hBool b => simp [Value.begin, driveFragment]
  | hNum n => cases n <;> simp [Value.begin, Number.begin, driveFragment]
  | hStr s => simp [Value.begin, driveFragment, Cow.text]
  | hArr l ih =>
      show driveFragment (.Seq l) = .Array (.mk l)
      simp only [driveFragment]
      rw [attachMapId l _ (fun x => ih x.1 x.2)]
  | hObj ps ih =>
      show driveFragment (.Map ps) = .Object (.mk ps)
      simp only [driveFragment]
      rw [attachMapId ps _ (fun x => by rw [ih x.1 x.2])]

/-- Modelled from the spec: the external `itoa` crate (an out-of-scope
collaborator per §2) formats an unsigned 64-bit integer in plain decimal. -/
def itoaFormatU (n : Nat) : String := toString n

/-- Modelled from the spec: the external `itoa` crate formats a signed 64-bit
integer in plain decimal, with a leading minus sign when negative. -/
def itoaFormatI (n : Int) : String := toString n

/-- Drop trailing zero digits of a fractional part. -/
def stripTrailingZeros (l : List Char) : List Char :=
  (l.reverse.dropWhile (fun c => c == '0')).reverse

/-- Modelled from the spec: the external `ryu` crate renders a finite double
in the shortest decimal form that parses back to the same value.  In the
exact-dyadic embedding of `f64` payloads, parsing a decimal is exact, so the
unique round-tripping decimal is the exact decimal expansion of `m * 2 ^ e`
with redundant trailing fraction zeros removed; it is printed in fixed-point
form with at least one integer and one fractional digit, as `ryu` does for
values in this range. -/
def ryuFormat (x : F64Bits) : String :=
  if x.m = 0 then "0.0"
  else
    let sign := if x.m < 0 then "-" else ""
    let mAbs := x.m.natAbs
    if 0 ≤ x.e then sign ++ toString (mAbs * 2 ^ x.e.toNat) ++ ".0"
    else
      let k := (-x.e).toNat
      let ds := toString (mAbs * 5 ^ k)
      let ds :=
        if ds.length ≤ k then String.mk (List.replicate (k + 1 - ds.length) '0') ++ ds
        else ds
      let frac := stripTrailingZeros (ds.drop (ds.length - k)).data
      sign ++ ds.take (ds.length - k) ++ "." ++
        (if frac.isEmpty then "0" else String.mk frac)

/-- `impl Display for Number` (`json/number.rs`): the two integer variants are
written through `itoa::Buffer::format`, the float variant through
`ryu::Buffer::format`. -/
def Number.display : Number → String
  | .U64 n => itoaFormatU n
  | .I64 n => itoaFormatI n
  | .F64 x => ryuFormat x

/-- Claim C1: teardown never recurses per nesting level; it is the iterative
work-list loop of §4.1, which terminates for every tree (totality of
`teardownRun`), releases every node exactly once - one loop iteration per
node, linear in node count - and on a chain of 100,000 nested single-element
arrays releases exactly the 100,001 nodes of the chain. -/
theorem teardown_worklist_linear :
    (∀ ws : List Value, teardownRun ws = nodeCountList ws) ∧
    (∀ n : Nat, teardownRun [chain n] = n + 1) ∧
    teardownRun [chain 100000] = 100001 := by
  have h2 : ∀ n : Nat, teardownRun [chain n] = n + 1 := by
    intro n
    rw [teardownRun_eq]
    simp [nodeCountList, nodeCount_chain]
  exact ⟨teardownRun_eq, h2, h2 100000⟩

/-- Claim C2: every `Visitor` method left at its default (null, boolean,
string, negative, nonnegative, float, seq, map) returns the generic `Error`
and hands back the bound place state unchanged - in particular a fresh empty
place stays empty, with no partial write. -/
theorem visitor_default_methods_fail (σ SeqH MapH : Type) (s : σ) (b : Bool)
    (t : String) (i : Int) (u : Nat) (x : F64Bits) :
    (defaultVisitor σ SeqH MapH).null s = (Except.error Error.mk, s) ∧
    (defaultVisitor σ SeqH MapH).boolean b s = (Except.error Error.mk, s) ∧
    (defaultVisitor σ SeqH MapH).string t s = (Except.error Error.mk, s) ∧
    (defaultVisitor σ SeqH MapH).negative i s = (Except.error Error.mk, s) ∧
    (defaultVisitor σ SeqH MapH).nonnegative u s = (Except.error Error.mk, s) ∧
    (defaultVisitor σ SeqH MapH).float x s = (Except.error Error.mk, s) ∧
    (defaultVisitor σ SeqH MapH).seq s = (Except.error Error.mk, s) ∧
    (defaultVisitor σ SeqH MapH).map s = (Except.error Error.mk, s) ∧
    ((defaultVisitor (Option Value) SeqH MapH).boolean b (deserializeDefault Value)).2 =
      deserializeDefault Value :=
  ⟨rfl, rfl, rfl, rfl, rfl, rfl, rfl, rfl, rfl⟩

/-- Claim C3: `Serialize::begin` for `Value` is a total function into
`Fragment` - it has no failure path in its type - and it is deterministic and
referentially transparent: two calls on equal values yield the same
fragment. -/
theorem value_begin_deterministic (v w : Value) (h : v = w) :
    Value.begin v = Value.begin w := by rw [h]

/-- Witness for C3 at a concrete value. -/
theorem value_begin_deterministic_witness :
    Value.begin (Value.Bool true) = Value.begin (Value.Bool true) :=
  value_begin_deterministic (Value.Bool true) (Value.Bool true) rfl

/-- Claim C4: serializing any value with `begin` and feeding the resulting
fragment shape back through the deserialization protocol into a fresh empty
place yields a place holding an equal value. -/
theorem serialize_deserialize_roundtrip (v : Value) :
    deserializeIntoPlace (Value.begin v) (deserializeDefault Value) = some v := by
  rw [deserializeIntoPlace, driveFragment_begin]

/-- Claim C5: `begin` on a `Number` preserves the representation exactly:
each variant maps to the mirroring fragment variant with the same payload,
with no narrowing. -/
theorem number_begin_exact :
    (∀ n : Nat, Number.begin (.U64 n) = Fragment.U64 n) ∧
    (∀ n : Int, Number.begin (.I64 n) = Fragment.I64 n) ∧
    (∀ x : F64Bits, Number.begin (.F64 x) = Fragment.F64 x) :=
  ⟨fun _ => rfl, fun _ => rfl, fun _ => rfl⟩

/-- Claim C6: `begin` on a `Value` maps each variant to the corresponding
fragment variant: `Null` to `Null`, `Bool` to `Bool`, `String` to a borrowed
(not copied) `Str`, `Number` to its mirrored numeric fragment, `Array` to a
`Seq` over its elements, `Object` to a `Map` over its entries. -/
theorem value_begin_shape :
    Value.begin .Null = Fragment.Null ∧
    (∀ b, Value.begin (.Bool b) = Fragment.Bool b) ∧
    (∀ s, Value.begin (.String s) = Fragment.Str (Cow.Borrowed s)) ∧
    (∀ n, Value.begin (.Number n) = Number.begin n) ∧
    (∀ a, Value.begin (.Array a) = Fragment.Seq a.inner) ∧
    (∀ o, Value.begin (.Object o) = Fragment.Map o.entries) :=
  ⟨rfl, fun _ => rfl, fun _ => rfl, fun _ => rfl, fun _ => rfl, fun _ => rfl⟩

/-- Claim C7: `Display` for `Number` formats the two integer variants with
integer (decimal) formatting and the float variant with shortest-round-trip
float formatting; in particular `U64 42` renders as "42" and the float 1.5
(the dyadic 3 * 2 ^ (-1)) renders as "1.5". -/
theorem number_display_formatting :
    (∀ n : Nat, Number.display (.U64 n) = itoaFormatU n) ∧
    (∀ n : Int, Number.display (.I64 n) = itoaFormatI n) ∧
    (∀ x : F64Bits, Number.display (.F64 x) = ryuFormat x) ∧
    Number.display (.U64 42) = "42" ∧
    Number.display (.F64 ⟨3, -1⟩) = "1.5" :=
  ⟨fun _ => rfl, fun _ => rfl, fun _ => rfl, by decide, by decide⟩

/-- Claim C8: cloning is a deep, eager copy: the clone of any value tree (and
of any array) equals the original, and teardown is not special-cased for
clones - tearing down the clone releases exactly as many nodes as tearing
down the original. -/
theorem clone_deep_copy :
    (∀ v : Value, Value.clone v = v) ∧
    (∀ a : Array, Array.clone a = a) ∧
    (∀ v : Value, teardownRun [Value.clone v] = teardownRun [v]) := by
  refine ⟨Value.clone_eq, ?_, ?_⟩
  · intro a
    cases a with
    | mk l => rw [Array.clone, cloneList_eq_of l (fun e _ => Value.clone_eq e)]
  · intro v
    rw [Value.clone_eq]

/-- Claim C9: `into_iter` on an `Array` moves the inner vector out via
`take` (`ManuallyDrop` plus a raw read), so the array's own `Drop` impl runs
no releases and the iterator yields exactly the elements of the inner vector
in order; releasing everything the iterator yields then releases exactly the
nodes the array owned - each exactly once, none leaked, none doubled. -/
theorem into_iter_moves_without_drop :
    (∀ a : Array, Array.intoIter a = a.inner) ∧
    (∀ a : Array, intoIterOwnDropReleases a = 0) ∧
    (∀ a : Array, teardownRun (Array.intoIter a) = Array.nodeCount a) := by
  refine ⟨?_, fun _ => rfl, ?_⟩
  · intro a
    cases a
    rfl
  · intro a
    cases a with
    | mk l =>
        rw [teardownRun_eq]
        rfl

/-- Claim C10: the default `Value` is `Null`, and the default place produced
by `Deserialize::default` is the empty `None` for every destination type. -/
theorem default_value_and_place :
    Value.default = Value.Null ∧
    ∀ (T : Type), deserializeDefault T = (none : Option T) :=
  ⟨rfl, fun _ => rfl⟩

end Miniserde
